import Mathlib

/-!
Verification of the Merkle-tree builder/visualizer (`merkle_tree_visualizer.py`).

The embedding models:
- `hashlib.sha256(...).hexdigest()` as a pure SHA-256 over byte lists
  (bytes are `Nat < 256`, 32-bit words are `Nat` reduced mod `2^32`),
  following FIPS 180-4, with UTF-8 encoding of strings;
- `hash_pair`, `build_merkle_tree`, `print_merkle_tree` and the pure part of
  `main` translated from the source.

The Python `while` loop of `build_merkle_tree` is rendered as a
fuel-indexed recursion `buildAux`; the fuel `leaves.length` is proven
sufficient (`buildAux_fuel_irrel`), so the rendering is exact.
-/

set_option maxRecDepth 10000

namespace MerkleViz

/-! ## SHA-256 core (model of `hashlib.sha256`) -/

/-- Reduce a natural number to a 32-bit word. -/
def mod32 (n : Nat) : Nat := n % 4294967296

/-- Right rotation of a 32-bit word. -/
def rotr32 (x n : Nat) : Nat := mod32 ((x >>> n) ||| (x <<< (32 - n)))

/-- SHA-256 `Ch` function; `NOT x` is `0xFFFFFFFF XOR x` for `x < 2^32`. -/
def chFun (x y z : Nat) : Nat := (x &&& y) ^^^ ((4294967295 ^^^ x) &&& z)

/-- SHA-256 `Maj` function. -/
def majFun (x y z : Nat) : Nat := (x &&& y) ^^^ (x &&& z) ^^^ (y &&& z)

/-- SHA-256 big sigma 0. -/
def bsig0 (x : Nat) : Nat := rotr32 x 2 ^^^ rotr32 x 13 ^^^ rotr32 x 22

/-- SHA-256 big sigma 1. -/
def bsig1 (x : Nat) : Nat := rotr32 x 6 ^^^ rotr32 x 11 ^^^ rotr32 x 25

/-- SHA-256 small sigma 0. -/
def ssig0 (x : Nat) : Nat := rotr32 x 7 ^^^ rotr32 x 18 ^^^ (x >>> 3)

/-- SHA-256 small sigma 1. -/
def ssig1 (x : Nat) : Nat := rotr32 x 17 ^^^ rotr32 x 19 ^^^ (x >>> 10)

/-- The 64 SHA-256 round constants of FIPS 180-4, written in decimal. -/
def sha256K : List Nat :=
  [1116352408, 1899447441, 3049323471, 3921009573, 961987163,
   1508970993, 2453635748, 2870763221, 3624381080, 310598401,
   607225278, 1426881987, 1925078388, 2162078206, 2614888103,
   3248222580, 3835390401, 4022224774, 264347078, 604807628,
   770255983, 1249150122, 1555081692, 1996064986, 2554220882,
   2821834349, 2952996808, 3210313671, 3336571891, 3584528711,
   113926993, 338241895, 666307205, 773529912, 1294757372,
   1396182291, 1695183700, 1986661051, 2177026350, 2456956037,
   2730485921, 2820302411, 3259730800, 3345764771, 3516065817,
   3600352804, 4094571909, 275423344, 430227734, 506948616,
   659060556, 883997877, 958139571, 1322822218, 1537002063,
   1747873779, 1955562222, 2024104815, 2227730452, 2361852424,
   2428436474, 2756734187, 3204031479, 3329325298]

/-- Big-endian byte rendering of a natural number into `k` bytes. -/
def toBytesBE : Nat → Nat → List Nat
  | 0, _ => []
  | k + 1, n => toBytesBE k (n / 256) ++ [n % 256]

/-- Group a byte list into big-endian 32-bit words, four bytes at a time. -/
def bytesToWords : List Nat → List Nat
  | a :: b :: c :: d :: rest => (((a * 256 + b) * 256 + c) * 256 + d) :: bytesToWords rest
  | _ => []

/-- Apply `f` to `x`, `n` times. -/
def applyN {α : Type} (f : α → α) : Nat → α → α
  | 0, x => x
  | n + 1, x => applyN f n (f x)

/-- One step of the message-schedule extension, on the reversed schedule
(most recent word first): pushes `σ1(W[t-2]) + W[t-7] + σ0(W[t-15]) + W[t-16]`. -/
def scheduleRevStep (w : List Nat) : List Nat :=
  mod32 (ssig1 (w.getD 1 0) + w.getD 6 0 + ssig0 (w.getD 14 0) + w.getD 15 0) :: w

/-- The 64-word message schedule of a 16-word block. -/
def schedule (m16 : List Nat) : List Nat :=
  (applyN scheduleRevStep 48 m16.reverse).reverse

/-- The eight 32-bit working variables of the SHA-256 compression function. -/
structure Sha2State where
  sa : Nat
  sb : Nat
  sc : Nat
  sd : Nat
  se : Nat
  sf : Nat
  sg : Nat
  sh : Nat
deriving DecidableEq

/-- One round of the SHA-256 compression function, consuming a constant-word
pair `(K[t], W[t])`. -/
def compressStep (st : Sha2State) (kw : Nat × Nat) : Sha2State :=
  let t1 := mod32 (st.sh + bsig1 st.se + chFun st.se st.sf st.sg + kw.1 + kw.2)
  let t2 := mod32 (bsig0 st.sa + majFun st.sa st.sb st.sc)
  ⟨mod32 (t1 + t2), st.sa, st.sb, st.sc, mod32 (st.sd + t1), st.se, st.sf, st.sg⟩

/-- Process one 64-byte block: 64 compression rounds, then add the result
to the incoming state, word-wise mod `2^32`. -/
def processBlock (st : Sha2State) (block : List Nat) : Sha2State :=
  let w := schedule (bytesToWords block)
  let c := (sha256K.zip w).foldl compressStep st
  ⟨mod32 (st.sa + c.sa), mod32 (st.sb + c.sb), mod32 (st.sc + c.sc), mod32 (st.sd + c.sd),
   mod32 (st.se + c.se), mod32 (st.sf + c.sf), mod32 (st.sg + c.sg), mod32 (st.sh + c.sh)⟩

/-- The SHA-256 initial hash value of FIPS 180-4, written in decimal. -/
def sha256Init : Sha2State :=
  ⟨1779033703, 3144134277, 1013904242, 2773480762,
   1359893119, 2600822924, 528734635, 1541459225⟩

/-- SHA-256 padding: append `0x80`, zeros to 56 mod 64, then the bit length
as eight big-endian bytes. -/
def padMessage (m : List Nat) : List Nat :=
  m ++ [128] ++ List.replicate ((120 - ((m.length + 1) % 64)) % 64) 0
    ++ toBytesBE 8 (m.length * 8)

/-- Split a byte list into 64-byte chunks (fuel-indexed; `l.length` fuel is
always enough since each step strictly shortens a non-empty list). -/
def chunksAux : Nat → List Nat → List (List Nat)
  | 0, _ => []
  | _, [] => []
  | fuel + 1, l => l.take 64 :: chunksAux fuel (l.drop 64)

/-- Split a byte list into 64-byte chunks. -/
def chunks64 (l : List Nat) : List (List Nat) := chunksAux l.length l

/-- Big-endian bytes of the eight state words: the 32-byte digest. -/
def stateBytes (st : Sha2State) : List Nat :=
  toBytesBE 4 st.sa ++ toBytesBE 4 st.sb ++ toBytesBE 4 st.sc ++ toBytesBE 4 st.sd ++
  toBytesBE 4 st.se ++ toBytesBE 4 st.sf ++ toBytesBE 4 st.sg ++ toBytesBE 4 st.sh

/-- SHA-256 of a byte list, as a 32-byte list. -/
def sha256 (msg : List Nat) : List Nat :=
  stateBytes ((chunks64 (padMessage msg)).foldl processBlock sha256Init)

/-! ## Hex rendering and UTF-8 encoding -/

/-- Lowercase hexadecimal digit for `n < 16`. -/
def hexChar (n : Nat) : Char :=
  if n < 10 then Char.ofNat (48 + n) else Char.ofNat (87 + n)

/-- The two lowercase hex characters of one byte. -/
def byteHex (b : Nat) : List Char := [hexChar (b / 16), hexChar (b % 16)]

/-- Lowercase hexadecimal string of a byte list (model of `hexdigest()`). -/
def toHex (bytes : List Nat) : String :=
  String.mk (bytes.foldr (fun b acc => byteHex b ++ acc) [])

/-- UTF-8 encoding of a single character. -/
def utf8EncodeChar (c : Char) : List Nat :=
  let n := c.toNat
  if n < 128 then [n]
  else if n < 2048 then [192 ||| (n >>> 6), 128 ||| (n &&& 63)]
  else if n < 65536 then
    [224 ||| (n >>> 12), 128 ||| ((n >>> 6) &&& 63), 128 ||| (n &&& 63)]
  else
    [240 ||| (n >>> 18), 128 ||| ((n >>> 12) &&& 63),
     128 ||| ((n >>> 6) &&& 63), 128 ||| (n &&& 63)]

/-- UTF-8 encoding of a string (model of `str.encode("utf-8")`). -/
def utf8Bytes (s : String) : List Nat :=
  s.data.foldr (fun c acc => utf8EncodeChar c ++ acc) []

/-- Model of `hashlib.sha256(s.encode("utf-8")).hexdigest()`. -/
def sha256hex (s : String) : String := toHex (sha256 (utf8Bytes s))

/-! ## The source functions -/

/-- `hash_pair(a, b)`: SHA-256 hex digest of the UTF-8 bytes of `a + b`
(source lines 4-6). -/
def hash_pair (a b : String) : String := sha256hex (a ++ b)

/-- The odd-length padding step of `build_merkle_tree` (source lines 16-17):
if the layer has odd length, append a duplicate of its last element. -/
def padLayer (l : List String) : List String :=
  if l.length % 2 = 1 then l ++ [l.getLastD ""] else l

/-- The pairing loop of `build_merkle_tree` (source lines 18-20): hash
adjacent pairs left to right.  Called on an even-length list. -/
def pairUp : List String → List String
  | a :: b :: rest => hash_pair a b :: pairUp rest
  | _ => []

/-- One iteration of the `while` loop of `build_merkle_tree`: pad to even
length, then hash adjacent pairs. -/
def nextLayer (l : List String) : List String := pairUp (padLayer l)

/-- The `while` loop of `build_merkle_tree` (source lines 12-21), rendered
with explicit fuel: while the current layer has more than one element,
append the next layer.  `buildAux_fuel_irrel` shows any fuel at least
`l.length` gives the same result, so the fuel is an artifact of the
rendering, not a semantic bound. -/
def buildAux : Nat → List String → List (List String)
  | 0, l => [l]
  | fuel + 1, l => if 1 < l.length then l :: buildAux fuel (nextLayer l) else [l]

/-- `build_merkle_tree(leaves)` (source lines 9-22): all layers,
leaves first, root layer last. -/
def build_merkle_tree (leaves : List String) : List (List String) :=
  buildAux leaves.length leaves

/-- `print_merkle_tree(tree)` (source lines 25-31), as the list of printed
lines: layers from root (last) to leaves (first), digests truncated to their
first 8 characters, joined with three spaces, indented four spaces per depth. -/
def print_merkle_tree (tree : List (List String)) : List String :=
  (tree.reverse.enum).map (fun p =>
    String.join (List.replicate p.1 "    ") ++
      String.intercalate "   " (p.2.map (fun h => h.take 8)))

/-! ## Model of `main` (source lines 34-47) -/

/-- Python ASCII whitespace as stripped by `str.strip()`. -/
def isPyWhitespace (c : Char) : Bool :=
  c = ' ' || c = '\t' || c = '\n' || c = '\x0d' || c = '\x0b' || c = '\x0c'

/-- Model of Python `str.strip()`. -/
def pyStrip (s : String) : String :=
  String.mk (((s.data.dropWhile isPyWhitespace).reverse.dropWhile isPyWhitespace).reverse)

/-- Model of Python `str.split(",")`: split on every comma, keeping empty
pieces. -/
def splitCommaAux : List Char → List Char → List String
  | [], acc => [String.mk acc.reverse]
  | c :: rest, acc =>
    if c = ',' then String.mk acc.reverse :: splitCommaAux rest []
    else splitCommaAux rest (c :: acc)

/-- Model of Python `str.split(",")`. -/
def splitComma (s : String) : List String := splitCommaAux s.data []

/-- Observable outcome of one run of `main` on a given input line. -/
inductive MainOutcome where
  /-- The `if not data` branch: prints "No data provided. Exiting." and
  returns normally without building a tree. -/
  | noData : MainOutcome
  /-- Normal run: tree built and printed, root printed. -/
  | printed : List (List String) → String → MainOutcome
  /-- `tree[-1][0]` raised `IndexError`: the tree was built and printed but
  its last layer is empty. -/
  | indexError : List (List String) → MainOutcome
deriving DecidableEq

/-- The input-dependent behaviour of `main` (source lines 34-47): strip the
line; if empty, report no data; otherwise split on commas, strip and drop
empty tokens, hash each token into a leaf, build the tree, and look up
`tree[-1][0]` as the root (an `IndexError` when the last layer is empty). -/
def mainModel (line : String) : MainOutcome :=
  let data := pyStrip line
  if data = "" then .noData
  else
    let items := ((splitComma data).map pyStrip).filter (fun v => v ≠ "")
    let leaves := items.map sha256hex
    let tree := build_merkle_tree leaves
    match (tree.getLastD []).head? with
    | some r => .printed tree r
    | none => .indexError tree

/-! ## Structural lemmas about the builder -/

/-- `pairUp` halves a layer's length, rounding down. -/
theorem pairUp_length : ∀ l : List String, (pairUp l).length = l.length / 2
  | [] => by simp [pairUp]
  | [_] => by simp [pairUp]
  | _ :: _ :: rest => by
    simp only [pairUp, List.length_cons, pairUp_length rest]
    omega

/-- `padLayer` adds one element exactly on odd-length layers. -/
theorem padLayer_length (l : List String) :
    (padLayer l).length = if l.length % 2 = 1 then l.length + 1 else l.length := by
  unfold padLayer
  by_cases h : l.length % 2 = 1
  · simp [h]
  · simp [h]

/-- One loop iteration maps a layer of length `n` to one of length
`⌈n / 2⌉ = (n + 1) / 2`. -/
theorem nextLayer_length (l : List String) :
    (nextLayer l).length = (l.length + 1) / 2 := by
  unfold nextLayer
  rw [pairUp_length, padLayer_length]
  by_cases h : l.length % 2 = 1
  · simp [h]
  · simp [h]
    omega

/-- The step equation of the rendered `while` loop. -/
theorem buildAux_succ_def (fuel : Nat) (l : List String) :
    buildAux (fuel + 1) l
      = if 1 < l.length then l :: buildAux fuel (nextLayer l) else [l] := rfl

/-- `buildAux` always returns the starting layer as its head. -/
theorem buildAux_cons (fuel : Nat) (l : List String) :
    ∃ t, buildAux fuel l = l :: t := by
  cases fuel with
  | zero => exact ⟨[], rfl⟩
  | succ n =>
    unfold buildAux
    by_cases h : 1 < l.length <;> simp [h]

/-- `buildAux` never returns the empty list of layers. -/
theorem buildAux_ne_nil (fuel : Nat) (l : List String) : buildAux fuel l ≠ [] := by
  obtain ⟨t, ht⟩ := buildAux_cons fuel l
  simp [ht]

/-- On a layer of length at most one the loop body never runs. -/
theorem buildAux_of_small (fuel : Nat) (l : List String) (h : l.length ≤ 1) :
    buildAux fuel l = [l] := by
  cases fuel with
  | zero => rfl
  | succ n =>
    unfold buildAux
    simp [show ¬ 1 < l.length by omega]

/-- Any fuel at least the layer's length yields the same tower of layers:
the fuel in `buildAux` is an artifact of rendering the `while` loop, not a
semantic bound. -/
theorem buildAux_fuel_irrel :
    ∀ (fuel fuel' : Nat) (l : List String), l.length ≤ fuel → l.length ≤ fuel' →
      buildAux fuel l = buildAux fuel' l
  | 0, fuel', l, h, _ => by
    rw [buildAux_of_small 0 l (by omega), buildAux_of_small fuel' l (by omega)]
  | fuel + 1, 0, l, _, h' => by
    rw [buildAux_of_small (fuel + 1) l (by omega), buildAux_of_small 0 l (by omega)]
  | fuel + 1, fuel' + 1, l, h, h' => by
    by_cases hl : 1 < l.length
    · have hn : (nextLayer l).length = (l.length + 1) / 2 := nextLayer_length l
      have ih := buildAux_fuel_irrel fuel fuel' (nextLayer l) (by omega) (by omega)
      unfold buildAux
      simp [hl, ih]
    · rw [buildAux_of_small (fuel + 1) l (by omega),
        buildAux_of_small (fuel' + 1) l (by omega)]

/-- With enough fuel, the loop drives a non-empty starting layer down to a
final layer of exactly one digest. -/
theorem buildAux_last :
    ∀ (fuel : Nat) (l : List String), l ≠ [] → l.length ≤ fuel →
      ∃ last, (buildAux fuel l).getLast? = some last ∧ last.length = 1
  | 0, l, h, hle => by
    have : l = [] := List.length_eq_zero.mp (by omega)
    exact absurd this h
  | fuel + 1, l, h, hle => by
    by_cases hl : 1 < l.length
    · have hn : (nextLayer l).length = (l.length + 1) / 2 := nextLayer_length l
      have hnn : nextLayer l ≠ [] := by
        intro hnil
        rw [hnil] at hn
        simp at hn
        omega
      obtain ⟨last, hlast, hone⟩ :=
        buildAux_last fuel (nextLayer l) hnn (by omega)
      refine ⟨last, ?_, hone⟩
      unfold buildAux
      simp only [hl, if_true]
      obtain ⟨t, ht⟩ := buildAux_cons fuel (nextLayer l)
      rw [ht] at hlast ⊢
      simpa using hlast
    · rw [buildAux_of_small (fuel + 1) l (by omega)]
      refine ⟨l, rfl, ?_⟩
      have : l.length ≠ 0 := fun h0 => h (List.length_eq_zero.mp h0)
      omega

/-- With enough fuel, each layer of the tower above a layer of more than one
element has exactly `⌈previous / 2⌉` elements. -/
theorem buildAux_halving :
    ∀ (fuel : Nat) (l : List String), l.length ≤ fuel → ∀ i : Nat,
      1 < ((buildAux fuel l).getD i []).length →
      i + 1 < (buildAux fuel l).length ∧
        ((buildAux fuel l).getD (i + 1) []).length
          = (((buildAux fuel l).getD i []).length + 1) / 2
  | 0, l, hle, i, hgt => by
    have : l = [] := List.length_eq_zero.mp (by omega)
    subst this
    rcases i with _ | j <;> simp [buildAux] at hgt
  | fuel + 1, l, hle, i, hgt => by
    by_cases hl : 1 < l.length
    · have hn : (nextLayer l).length = (l.length + 1) / 2 := nextLayer_length l
      have hstep : buildAux (fuel + 1) l = l :: buildAux fuel (nextLayer l) := by
        rw [buildAux_succ_def]
        simp [hl]
      rw [hstep] at hgt ⊢
      rcases i with _ | j
      · obtain ⟨t, ht⟩ := buildAux_cons fuel (nextLayer l)
        constructor
        · simp [ht]
        · simp only [List.getD_cons_zero] at hgt ⊢
          simp [ht, hn]
      · simp only [List.getD_cons_succ] at hgt ⊢
        have ih := buildAux_halving fuel (nextLayer l) (by omega) j hgt
        simp only [List.length_cons]
        exact ⟨by omega, ih.2⟩
    · rw [buildAux_of_small (fuel + 1) l (by omega)] at hgt
      rcases i with _ | j
      · simp only [List.getD_cons_zero] at hgt
        omega
      · simp at hgt

/-! ## Lemmas about the digest rendering and the encoding -/

/-- `toBytesBE k` always renders exactly `k` bytes. -/
theorem toBytesBE_length : ∀ (k n : Nat), (toBytesBE k n).length = k
  | 0, _ => rfl
  | k + 1, n => by
    simp [toBytesBE, toBytesBE_length k (n / 256)]

/-- Every byte rendered by `toBytesBE` is below 256. -/
theorem toBytesBE_lt : ∀ (k n : Nat), ∀ x ∈ toBytesBE k n, x < 256
  | 0, _, x, hx => by simp [toBytesBE] at hx
  | k + 1, n, x, hx => by
    simp only [toBytesBE, List.mem_append, List.mem_singleton] at hx
    rcases hx with hx | hx
    · exact toBytesBE_lt k (n / 256) x hx
    · subst hx
      exact Nat.mod_lt n (by omega)

/-- The digest of a state is exactly 32 bytes. -/
theorem stateBytes_length (st : Sha2State) : (stateBytes st).length = 32 := by
  simp [stateBytes, toBytesBE_length]

/-- Every byte of a state digest is below 256. -/
theorem stateBytes_lt (st : Sha2State) : ∀ x ∈ stateBytes st, x < 256 := by
  intro x hx
  simp only [stateBytes, List.mem_append] at hx
  rcases hx with ((((((hx | hx) | hx) | hx) | hx) | hx) | hx) | hx <;>
    exact toBytesBE_lt 4 _ x hx

/-- SHA-256 digests are 32 bytes long. -/
theorem sha256_length (msg : List Nat) : (sha256 msg).length = 32 :=
  stateBytes_length _

/-- Every byte of a SHA-256 digest is below 256. -/
theorem sha256_lt (msg : List Nat) : ∀ x ∈ sha256 msg, x < 256 :=
  stateBytes_lt _

/-- Recognizer for lowercase hexadecimal characters. -/
def isLowerHexChar (c : Char) : Bool :=
  c.isDigit || ('a' ≤ c && c ≤ 'f')

/-- `hexChar` yields a lowercase hexadecimal character on every digit. -/
theorem hexChar_isLowerHex (n : Nat) (h : n < 16) :
    isLowerHexChar (hexChar n) = true := by
  interval_cases n <;> decide

/-- The hex rendering of a byte list has two characters per byte. -/
theorem toHex_length : ∀ bytes : List Nat, (toHex bytes).length = 2 * bytes.length
  | [] => rfl
  | b :: rest => by
    have ih := toHex_length rest
    simp only [toHex, String.length, List.foldr_cons] at ih ⊢
    simp [byteHex] at ih ⊢
    omega

/-- The hex rendering of bytes below 256 uses only lowercase hexadecimal
characters. -/
theorem toHex_chars : ∀ bytes : List Nat, (∀ x ∈ bytes, x < 256) →
      ∀ c ∈ (toHex bytes).data, isLowerHexChar c = true
  | [], _, c, hc => by simp [toHex] at hc
  | b :: rest, hlt, c, hc => by
    simp only [toHex, String.mk, List.foldr_cons, byteHex, List.cons_append,
      List.nil_append, List.mem_cons] at hc
    have hb : b < 256 := hlt b (List.mem_cons_self b rest)
    rcases hc with hc | hc | hc
    · subst hc
      exact hexChar_isLowerHex _ (by omega)
    · subst hc
      exact hexChar_isLowerHex _ (by omega)
    · exact toHex_chars rest (fun x hx => hlt x (List.mem_cons_of_mem b hx)) c hc

/-- UTF-8 encoding splits over string concatenation. -/
theorem utf8Bytes_append (a b : String) :
    utf8Bytes (a ++ b) = utf8Bytes a ++ utf8Bytes b := by
  have hdata : (a ++ b).data = a.data ++ b.data := by
    cases a
    cases b
    rfl
  have hfold : ∀ (l : List Char) (acc : List Nat),
      l.foldr (fun c acc => utf8EncodeChar c ++ acc) acc
        = l.foldr (fun c acc => utf8EncodeChar c ++ acc) [] ++ acc := by
    intro l
    induction l with
    | nil => simp
    | cons c rest ih =>
      intro acc
      rw [List.foldr_cons, List.foldr_cons, ih acc, List.append_assoc]
  simp only [utf8Bytes, hdata, List.foldr_append]
  rw [hfold a.data (List.foldr _ [] b.data)]

/-! ## Lemmas about the rendering of the tree -/

/-- Index `i` of the printed lines of an enumerated layer list: the line is
the layer at index `i`, indented by the enumeration counter. -/
theorem print_lines_getD :
    ∀ (l : List (List String)) (n i : Nat), i < l.length →
      ((List.enumFrom n l).map (fun p =>
          String.join (List.replicate p.1 "    ")
            ++ String.intercalate "   " (p.2.map (fun h => h.take 8)))).getD i ""
        = String.join (List.replicate (n + i) "    ")
            ++ String.intercalate "   " ((l.getD i []).map (fun h => h.take 8))
  | [], _, i, h => by simp at h
  | x :: xs, n, 0, _ => by simp [List.enumFrom]
  | x :: xs, n, i + 1, h => by
    simp only [List.enumFrom, List.map_cons, List.getD_cons_succ]
    rw [print_lines_getD xs (n + 1) i (by simpa using h)]
    have hni : n + 1 + i = n + (i + 1) := by omega
    rw [hni]

/-! ## NIST test vectors for the SHA-256 model

These check the `sha256` model, byte for byte, against the standard
test vectors that `hashlib.sha256` satisfies. -/

/-- SHA-256 of `"abc"`, FIPS 180-4 appendix test vector. -/
theorem sha256hex_testvector_abc :
    sha256hex "abc"
      = "ba7816bf8f01cfea414140de5dae2223b00361a396177a9cb410ff61f20015ad" := by
  decide

/-- SHA-256 of the empty string. -/
theorem sha256hex_testvector_empty :
    sha256hex ""
      = "e3b0c44298fc1c149afbf4c8996fb92427ae41e4649b934ca495991b7852b855" := by
  decide

/-! ## The claims -/

/-- C1: for every non-empty list of leaf digests, `build_merkle_tree leaves`
terminates (it is a total function of its fuel-free rendering, see
`buildAux_fuel_irrel`) and the last layer of the returned tree has exactly
one element, the Merkle root. -/
theorem build_merkle_tree_last_singleton (leaves : List String) (h : leaves ≠ []) :
    ∃ last, (build_merkle_tree leaves).getLast? = some last ∧ last.length = 1 :=
  buildAux_last leaves.length leaves h (Nat.le_refl _)

/-- Witness for C1 at the concrete leaves `["a", "b", "c"]`. -/
theorem build_merkle_tree_last_singleton_witness :
    ∃ last, (build_merkle_tree ["a", "b", "c"]).getLast? = some last ∧ last.length = 1 :=
  build_merkle_tree_last_singleton ["a", "b", "c"] (by decide)

/-- C2: in the tree returned by `build_merkle_tree`, every layer of more
than one element is followed by a layer of exactly `⌈length / 2⌉`
(written `(length + 1) / 2` in natural division) elements. -/
theorem build_merkle_tree_layer_halving (leaves : List String) (i : Nat)
    (h : 1 < ((build_merkle_tree leaves).getD i []).length) :
    i + 1 < (build_merkle_tree leaves).length ∧
      ((build_merkle_tree leaves).getD (i + 1) []).length
        = (((build_merkle_tree leaves).getD i []).length + 1) / 2 :=
  buildAux_halving leaves.length leaves (Nat.le_refl _) i h

/-- Witness for C2 at the concrete leaves `["a", "b", "c"]` and index 0. -/
theorem build_merkle_tree_layer_halving_witness :
    0 + 1 < (build_merkle_tree ["a", "b", "c"]).length ∧
      ((build_merkle_tree ["a", "b", "c"]).getD (0 + 1) []).length
        = (((build_merkle_tree ["a", "b", "c"]).getD 0 []).length + 1) / 2 :=
  build_merkle_tree_layer_halving ["a", "b", "c"] 0 (by decide)

/-- C3, evaluated at the failing input: on the input line `","` every
comma-separated token strips to the empty string, yet `main` does not take
the no-data branch (the line itself does not strip to empty); it builds the
tree `[[]]` out of zero leaves and the root lookup `tree[-1][0]` raises
`IndexError` instead of terminating normally. -/
theorem mainModel_comma_indexError :
    (splitComma ",").map pyStrip = ["", ""] ∧
      mainModel "," = MainOutcome.indexError [[]] := by
  decide

/-- C4: on three leaves the odd layer is padded with a duplicate of its
last element, so the second layer is `[hash_pair a b, hash_pair c c]` and
the root combines those two. -/
theorem build_merkle_tree_three_leaves (a b c : String) :
    build_merkle_tree [a, b, c]
      = [[a, b, c],
         [hash_pair a b, hash_pair c c],
         [hash_pair (hash_pair a b) (hash_pair c c)]] := by
  simp [build_merkle_tree, buildAux, nextLayer, padLayer, pairUp]

/-- C5: `hash_pair` is SHA-256 of the concatenated byte sequences of its
two arguments, left then right with no separator, rendered in lowercase
hexadecimal (64 characters drawn from `0-9a-f`). -/
theorem hash_pair_spec (a b : String) :
    hash_pair a b = toHex (sha256 (utf8Bytes a ++ utf8Bytes b))
      ∧ (hash_pair a b).length = 64
      ∧ (hash_pair a b).data.all isLowerHexChar = true := by
  refine ⟨?_, ?_, ?_⟩
  · unfold hash_pair sha256hex
    rw [utf8Bytes_append]
  · unfold hash_pair sha256hex
    rw [toHex_length, sha256_length]
  · unfold hash_pair sha256hex
    rw [List.all_eq_true]
    intro c hc
    exact toHex_chars _ (sha256_lt _) c hc

/-- C6: `build_merkle_tree` is deterministic: two calls on the same leaf
list return identical layers and the same root layer. -/
theorem build_merkle_tree_deterministic (l1 l2 : List String) (h : l1 = l2) :
    build_merkle_tree l1 = build_merkle_tree l2 ∧
      (build_merkle_tree l1).getLastD [] = (build_merkle_tree l2).getLastD [] := by
  subst h
  exact ⟨rfl, rfl⟩

/-- Witness for C6 at the concrete leaves `["x", "y"]`. -/
theorem build_merkle_tree_deterministic_witness :
    build_merkle_tree ["x", "y"] = build_merkle_tree ["x", "y"] ∧
      (build_merkle_tree ["x", "y"]).getLastD []
        = (build_merkle_tree ["x", "y"]).getLastD [] :=
  build_merkle_tree_deterministic ["x", "y"] ["x", "y"] rfl

/-- C7: a single leaf gives the one-layer tree `[[a]]` whose root entry is
`a` itself, with no combination performed. -/
theorem build_merkle_tree_single_leaf (a : String) :
    build_merkle_tree [a] = [[a]]
      ∧ ((build_merkle_tree [a]).getLastD []).getD 0 "" = a := by
  refine ⟨?_, ?_⟩ <;> simp [build_merkle_tree, buildAux]

/-- C8: four leaves give exactly three layers with second layer
`[hash_pair a b, hash_pair c d]` and root combining those two; two leaves
give exactly two layers with root `hash_pair x y`. -/
theorem build_merkle_tree_four_and_two_leaves (a b c d x y : String) :
    (build_merkle_tree [a, b, c, d]
        = [[a, b, c, d],
           [hash_pair a b, hash_pair c d],
           [hash_pair (hash_pair a b) (hash_pair c d)]])
      ∧ build_merkle_tree [x, y] = [[x, y], [hash_pair x y]] := by
  refine ⟨?_, ?_⟩ <;> simp [build_merkle_tree, buildAux, nextLayer, padLayer, pairUp]

/-- C9: `print_merkle_tree` yields one line per layer; line `d` shows the
layer at distance `d` from the root (so the root layer comes first and the
leaves last), each digest truncated to its first 8 characters, joined by
three spaces, and indented four spaces per unit of depth.  The function is
a pure reading of the tree: the tree value itself is not modified. -/
theorem print_merkle_tree_spec (tree : List (List String)) :
    (print_merkle_tree tree).length = tree.length ∧
      ∀ d : Nat, d < tree.length →
        (print_merkle_tree tree).getD d ""
          = String.join (List.replicate d "    ")
              ++ String.intercalate "   "
                ((tree.getD (tree.length - 1 - d) []).map (fun h => h.take 8)) := by
  constructor
  · simp [print_merkle_tree, List.enum_length]
  · intro d hd
    unfold print_merkle_tree
    rw [show tree.reverse.enum = List.enumFrom 0 tree.reverse from rfl]
    rw [print_lines_getD tree.reverse 0 d (by simpa using hd)]
    simp only [Nat.zero_add]
    congr 2
    rw [List.getD_eq_getElem?_getD, List.getD_eq_getElem?_getD,
      List.getElem?_reverse hd]

/-- Witness for C9 at a concrete two-layer tree: the first printed line is
the root digest truncated to 8 characters with no indentation. -/
theorem print_merkle_tree_spec_witness :
    (print_merkle_tree [["abcdefghij"], ["0123456789abcdef"]]).getD 0 "" = "01234567" := by
  have h := (print_merkle_tree_spec [["abcdefghij"], ["0123456789abcdef"]]).2 0 (by decide)
  rw [h]
  rfl

/-- C10: on the empty leaf list the loop body never runs and the result is
the one-layer tree `[[]]`, whose only layer is empty: no error is raised
and there is no root element. -/
theorem build_merkle_tree_nil :
    build_merkle_tree [] = [[]] ∧ ((build_merkle_tree []).getLastD []).head? = none :=
  ⟨rfl, rfl⟩

end MerkleViz
